import Mathlib

/-!
Verification development for the b2w sentiment-dataset scripts
(`process_csv.py`, `create_dataset.py`, `hello.py`, `jsonl.py`).

Strings are modelled as `List Char`.  A missing / NaN pandas value is
modelled as `none : Option (List Char)`.
-/

set_option maxHeartbeats 1000000

namespace B2W

/-- Python double quote character, written by code point to avoid literal quoting issues. -/
def quoteD : Char := Char.ofNat 34

/-- Python single quote character. -/
def quoteS : Char := Char.ofNat 39

/-- Model of the regex class backslash-w (word characters): ASCII alphanumeric or underscore.
Python's class is Unicode-aware; the ASCII core is what the proofs rely on. -/
def isWordChar (c : Char) : Bool := c.isAlphanum || c = '_'

/-- Model of the regex class backslash-s (whitespace): space, tab, newline, carriage return. -/
def isSpaceChar (c : Char) : Bool := c = ' ' || c = '\t' || c = '\n' || c = '\r'

/-- One collapsed block of a character run, as the regex engine rewrites it.
A maximal run of k copies of c becomes a single c when the threshold is
reached and c is not a newline (the regex dot does not match newline);
otherwise the run is kept as is. -/
def emitRun (thr : Nat) (c : Char) (k : Nat) : List Char :=
  if c ≠ '\n' ∧ thr ≤ k then [c] else List.replicate k c

/-- Worker for run collapsing: `c` is the character of the current run,
`k` how many copies have been seen so far (at least one). -/
def collapseGo (thr : Nat) : Char → Nat → List Char → List Char
  | c, k, [] => emitRun thr c k
  | c, k, d :: rest =>
    if d = c then collapseGo thr c (k + 1) rest
    else emitRun thr c k ++ collapseGo thr d 1 rest

/-- Model of the run-collapsing regex substitution in `process_csv.py` (threshold 3):
every maximal run of three or more identical non-newline characters is
replaced by a single occurrence. -/
def collapse3 : List Char → List Char
  | [] => []
  | c :: rest => collapseGo 3 c 1 rest

/-- Model of `re.sub(r'(.)\1+', r'\1', text)` in `hello.py`:
every maximal run of two or more identical non-newline characters is
replaced by a single occurrence. -/
def collapse2 : List Char → List Char
  | [] => []
  | c :: rest => collapseGo 2 c 1 rest

/-- Model of `re.sub(r"[\"']", ' ', text)` in `process_csv.py`: each quote becomes a space. -/
def quotesToSpace (l : List Char) : List Char :=
  l.map fun c => if c = quoteD ∨ c = quoteS then ' ' else c

/-- Model of `re.sub(r'[^\w\s]', ' ', text)` in `process_csv.py`:
each character that is neither a word character nor whitespace becomes a space. -/
def nonWordToSpace (l : List Char) : List Char :=
  l.map fun c => if isWordChar c || isSpaceChar c then c else ' '

/-- Worker for whitespace squeezing; the flag records whether the previous
input character was whitespace (so the single replacement space was already
emitted for the current run). -/
def squeezeGo : Bool → List Char → List Char
  | _, [] => []
  | inRun, c :: rest =>
    if isSpaceChar c then
      (if inRun then [] else [' ']) ++ squeezeGo true rest
    else c :: squeezeGo false rest

/-- Model of `re.sub(r'\s+', ' ', text)`: each maximal whitespace run becomes one space. -/
def squeeze (l : List Char) : List Char := squeezeGo false l

/-- Python `str.strip()` on the left: drop leading whitespace. -/
def stripL (l : List Char) : List Char := l.dropWhile isSpaceChar

/-- Python `str.strip()` on the right: drop trailing whitespace. -/
def stripR (l : List Char) : List Char := (l.reverse.dropWhile isSpaceChar).reverse

/-- Python `str.strip()`. -/
def strip (l : List Char) : List Char := stripR (stripL l)

/-- Model of `clean_text` in `process_csv.py` on a present string: quotes to spaces,
collapse runs of three or more, non-word characters to spaces, squeeze
whitespace, strip. -/
def cleanStr (l : List Char) : List Char :=
  strip (squeeze (nonWordToSpace (collapse3 (quotesToSpace l))))

/-- Model of `clean_text` in `process_csv.py`, including the NaN branch:
`pd.isna` input returns the empty string. -/
def cleanText : Option (List Char) → List Char
  | none => []
  | some l => cleanStr l

/-- Model of `clean_text` in `hello.py` on a present string: collapse runs of two or
more, remove quotes, remove non-word non-space characters.  No whitespace
normalization and no strip. -/
def cleanHelloStr (l : List Char) : List Char :=
  ((collapse2 l).filter fun c => ¬(c = quoteD ∨ c = quoteS)).filter
    fun c => isWordChar c || isSpaceChar c

/-- Model of `clean_text` in `hello.py`, including the null branch: `pd.isnull`
input is returned unchanged (the NaN itself, not the empty string). -/
def cleanHello : Option (List Char) → Option (List Char)
  | none => none
  | some l => some (cleanHelloStr l)

/-! ### Interleaving (`create_dataset.py`, lines 98-107)

`list(zip_longest(*interleave_items))` produces `maxLen` rounds; round `j`
holds the `j`-th element of every list, padded with `None`; the flattening
loop skips the `None`s.  `interAux` reproduces this: each round contributes
the heads of the not-yet-exhausted lists, in the fixed list order. -/

/-- Length of the longest class list: the number of rounds `zip_longest` yields. -/
def maxLen (ls : List (List α)) : Nat := ls.foldr (fun l m => max l.length m) 0

/-- One round per fuel unit: heads of the non-exhausted lists, then recurse on tails. -/
def interAux : Nat → List (List α) → List α
  | 0, _ => []
  | n + 1, ls => ls.filterMap List.head? ++ interAux n (ls.map List.tail)

/-- Model of the interleaving in `create_sentiment_datasets`. -/
def interleave (ls : List (List α)) : List α := interAux (maxLen ls) ls

/-- Total number of elements over all class lists. -/
def sumLen (ls : List (List α)) : Nat := (ls.map List.length).sum

lemma sumLen_tails_le (ls : List (List α)) : sumLen (ls.map List.tail) ≤ sumLen ls := by
  induction ls with
  | nil => exact Nat.le_refl _
  | cons l rest ih =>
    have h1 : l.tail.length ≤ l.length := by
      cases l <;> simp
    simp only [sumLen, List.map_cons, List.sum_cons] at *
    omega

lemma sumLen_tails_lt (ls : List (List α)) (h : ¬ ls.all List.isEmpty) :
    sumLen (ls.map List.tail) < sumLen ls := by
  induction ls with
  | nil => simp at h
  | cons l rest ih =>
    simp only [List.all_cons, Bool.and_eq_true, not_and_or] at h
    rcases h with h | h
    · have h1 : l.tail.length < l.length := by
        cases l with
        | nil => simp at h
        | cons a t => simp
      have h2 := sumLen_tails_le rest
      simp only [sumLen, List.map_cons, List.sum_cons] at *
      omega
    · have h2 := ih h
      have h1 : l.tail.length ≤ l.length := by cases l <;> simp
      simp only [sumLen, List.map_cons, List.sum_cons] at *
      omega

/-- The round-robin merge as the specification words it: while some class
sequence still has elements, take one element from each non-exhausted
sequence in the fixed order, then continue with the remainders. -/
def roundRobin (ls : List (List α)) : List α :=
  if h : ls.all List.isEmpty then []
  else ls.filterMap List.head? ++ roundRobin (ls.map List.tail)
termination_by sumLen ls
decreasing_by exact sumLen_tails_lt ls (by simpa using h)

lemma interAux_of_all_nil (n : Nat) (ls : List (List α)) (h : ls.all List.isEmpty) :
    interAux n ls = [] := by
  induction n generalizing ls with
  | zero => rfl
  | succ n ih =>
    have h1 : ls.filterMap List.head? = [] := by
      rw [List.filterMap_eq_nil]
      intro l hl
      have := (List.all_eq_true.mp h) l hl
      cases l <;> simp_all
    have h2 : (ls.map List.tail).all List.isEmpty := by
      rw [List.all_eq_true]
      intro t ht
      obtain ⟨l, hl, rfl⟩ := List.mem_map.mp ht
      have := (List.all_eq_true.mp h) l hl
      cases l <;> simp_all
    simp [interAux, h1, ih _ h2]

lemma length_le_maxLen {l : List α} {ls : List (List α)} (h : l ∈ ls) :
    l.length ≤ maxLen ls := by
  induction ls with
  | nil => simp at h
  | cons x rest ih =>
    rcases List.mem_cons.mp h with rfl | h
    · exact le_max_left _ _
    · exact le_trans (ih h) (le_max_right _ _)

lemma maxLen_le {ls : List (List α)} {m : Nat} (h : ∀ l ∈ ls, l.length ≤ m) :
    maxLen ls ≤ m := by
  induction ls with
  | nil => exact Nat.zero_le _
  | cons x rest ih =>
    have hx := h x (List.mem_cons_self x rest)
    have hr := ih fun l hl => h l (List.mem_cons_of_mem x hl)
    exact max_le hx hr

lemma interAux_eq_roundRobin (n : Nat) (ls : List (List α)) (h : maxLen ls ≤ n) :
    interAux n ls = roundRobin ls := by
  induction n generalizing ls with
  | zero =>
    have hall : ls.all List.isEmpty := by
      rw [List.all_eq_true]
      intro l hl
      have := le_trans (length_le_maxLen hl) h
      cases l <;> simp_all
    rw [roundRobin, dif_pos hall]
    rfl
  | succ n ih =>
    by_cases hall : ls.all List.isEmpty
    · rw [interAux_of_all_nil _ _ hall, roundRobin, dif_pos hall]
    · rw [roundRobin, dif_neg hall]
      have htails : maxLen (ls.map List.tail) ≤ n := by
        apply maxLen_le
        intro t ht
        obtain ⟨l, hl, rfl⟩ := List.mem_map.mp ht
        have := le_trans (length_le_maxLen hl) h
        cases l <;> simp_all <;> omega
      simp [interAux, ih _ htails]

/-- The three sentiment classes, in the fixed precedence order of the code. -/
inductive Sent where
  | neg
  | neu
  | pos
deriving DecidableEq

/-- Tag every element of a class list with its class. -/
def tagS (s : Sent) (l : List α) : List (Sent × α) := l.map fun a => (s, a)

/-- Extract, in order, the elements of class `s` from a tagged sequence. -/
def classOf (s : Sent) (l : List (Sent × α)) : List α :=
  l.filterMap fun p => if p.1 = s then some p.2 else none

lemma classOf_interAux (n : Nat) (A B C : List α) :
    classOf Sent.neg (interAux n [tagS Sent.neg A, tagS Sent.neu B, tagS Sent.pos C]) = A.take n
  ∧ classOf Sent.neu (interAux n [tagS Sent.neg A, tagS Sent.neu B, tagS Sent.pos C]) = B.take n
  ∧ classOf Sent.pos (interAux n [tagS Sent.neg A, tagS Sent.neu B, tagS Sent.pos C]) = C.take n := by
  induction n generalizing A B C with
  | zero => simp [interAux, classOf]
  | succ n ih =>
    obtain ⟨h1, h2, h3⟩ := ih A.tail B.tail C.tail
    cases A <;> cases B <;> cases C <;>
      (simp_all [interAux, tagS, classOf, interAux_of_all_nil]; try tauto)

lemma classOf_interleave (A B C : List α) :
    classOf Sent.neg (interleave [tagS Sent.neg A, tagS Sent.neu B, tagS Sent.pos C]) = A
  ∧ classOf Sent.neu (interleave [tagS Sent.neg A, tagS Sent.neu B, tagS Sent.pos C]) = B
  ∧ classOf Sent.pos (interleave [tagS Sent.neg A, tagS Sent.neu B, tagS Sent.pos C]) = C := by
  have hA : A.length ≤ maxLen [tagS Sent.neg A, tagS Sent.neu B, tagS Sent.pos C] := by
    have := @length_le_maxLen _ (tagS Sent.neg A)
      [tagS Sent.neg A, tagS Sent.neu B, tagS Sent.pos C] (by simp)
    simpa [tagS] using this
  have hB : B.length ≤ maxLen [tagS Sent.neg A, tagS Sent.neu B, tagS Sent.pos C] := by
    have := @length_le_maxLen _ (tagS Sent.neu B)
      [tagS Sent.neg A, tagS Sent.neu B, tagS Sent.pos C] (by simp)
    simpa [tagS] using this
  have hC : C.length ≤ maxLen [tagS Sent.neg A, tagS Sent.neu B, tagS Sent.pos C] := by
    have := @length_le_maxLen _ (tagS Sent.pos C)
      [tagS Sent.neg A, tagS Sent.neu B, tagS Sent.pos C] (by simp)
    simpa [tagS] using this
  obtain ⟨h1, h2, h3⟩ := classOf_interAux
    (maxLen [tagS Sent.neg A, tagS Sent.neu B, tagS Sent.pos C]) A B C
  refine ⟨?_, ?_, ?_⟩
  · rw [interleave, h1, List.take_of_length_le hA]
  · rw [interleave, h2, List.take_of_length_le hB]
  · rw [interleave, h3, List.take_of_length_le hC]

/-- C1: the interleave of the per-class sequences is a round-robin merge with
fixed precedence negative, neutral, positive: it equals the recursive
round-robin that, at each round, takes one element from every class sequence
that still has elements, in that fixed order, until all are exhausted; for
every class the relative order of its elements in the output equals their
order in the class input; and for input sizes 3 (negative), 2 (neutral),
1 (positive) the output order is neg1, neu1, pos1, neg2, neu2, neg3. -/
theorem interleave_is_round_robin_and_order_preserving :
    (∀ (α : Type) (ls : List (List α)), interleave ls = roundRobin ls)
  ∧ (∀ (α : Type) (A B C : List α),
        classOf Sent.neg (interleave [tagS Sent.neg A, tagS Sent.neu B, tagS Sent.pos C]) = A
      ∧ classOf Sent.neu (interleave [tagS Sent.neg A, tagS Sent.neu B, tagS Sent.pos C]) = B
      ∧ classOf Sent.pos (interleave [tagS Sent.neg A, tagS Sent.neu B, tagS Sent.pos C]) = C)
  ∧ interleave [tagS Sent.neg ["neg1", "neg2", "neg3"], tagS Sent.neu ["neu1", "neu2"],
        tagS Sent.pos ["pos1"]] =
      [(Sent.neg, "neg1"), (Sent.neu, "neu1"), (Sent.pos, "pos1"),
       (Sent.neg, "neg2"), (Sent.neu, "neu2"), (Sent.neg, "neg3")] := by
  refine ⟨?_, ?_, ?_⟩
  · intro α ls
    exact interAux_eq_roundRobin _ _ (le_refl _)
  · intro α A B C
    exact classOf_interleave A B C
  · rfl

/-! ### Ratio split (`create_dataset.py`, lines 32-34 and 121-133)

`train_end = int(num_samples * train_ratio)` and
`test_end = int(num_samples * (train_ratio + test_ratio))`; the numeric
arguments are nonnegative, so Python `int` is the floor.  Arithmetic on the
configured proportions is modelled over the rationals. -/

/-- Model of `int(num_samples * train_ratio)`. -/
def trainEnd (n : Nat) (rTr : ℚ) : Nat := (⌊(n : ℚ) * rTr⌋).toNat

/-- Model of `int(num_samples * (train_ratio + test_ratio))`. -/
def testEnd (n : Nat) (rTr rTe : ℚ) : Nat := (⌊(n : ℚ) * (rTr + rTe)⌋).toNat

lemma trainEnd_le_testEnd (n : Nat) {rTr rTe : ℚ} (hTe : 0 ≤ rTe) :
    trainEnd n rTr ≤ testEnd n rTr rTe := by
  apply Int.toNat_le_toNat
  apply Int.floor_le_floor
  have : rTr ≤ rTr + rTe := le_add_of_nonneg_right hTe
  exact mul_le_mul_of_nonneg_left this (by positivity)

lemma testEnd_le (n : Nat) {rTr rTe rVa : ℚ} (hVa : 0 ≤ rVa)
    (hsum : rTr + rTe + rVa = 1) : testEnd n rTr rTe ≤ n := by
  have h1 : rTr + rTe ≤ 1 := by linarith
  have h2 : (n : ℚ) * (rTr + rTe) ≤ (n : ℚ) * 1 :=
    mul_le_mul_of_nonneg_left h1 (by positivity)
  have h3 : (⌊(n : ℚ) * (rTr + rTe)⌋) ≤ ⌊((n : ℚ) : ℚ)⌋ := by
    apply Int.floor_le_floor
    simpa using h2
  rw [Int.floor_natCast] at h3
  calc (⌊(n : ℚ) * (rTr + rTe)⌋).toNat ≤ (n : ℤ).toNat := Int.toNat_le_toNat h3
    _ = n := Int.toNat_natCast n

/-- C2: for every interleaved sequence and nonnegative ratio triple summing
to one, the positional split into the three Python slices is a partition:
the bounds are ordered, the three sizes telescope back to the total length,
and the concatenation of the three slices is the original sequence. -/
theorem split_partitions_interleaved {α : Type} (l : List α) (rTr rTe rVa : ℚ)
    (hTr : 0 ≤ rTr) (hTe : 0 ≤ rTe) (hVa : 0 ≤ rVa) (hsum : rTr + rTe + rVa = 1) :
    trainEnd l.length rTr ≤ testEnd l.length rTr rTe
  ∧ testEnd l.length rTr rTe ≤ l.length
  ∧ trainEnd l.length rTr + (testEnd l.length rTr rTe - trainEnd l.length rTr)
      + (l.length - testEnd l.length rTr rTe) = l.length
  ∧ l.take (trainEnd l.length rTr)
      ++ (l.take (testEnd l.length rTr rTe)).drop (trainEnd l.length rTr)
      ++ l.drop (testEnd l.length rTr rTe) = l
  ∧ (l.take (trainEnd l.length rTr)).length
      + ((l.take (testEnd l.length rTr rTe)).drop (trainEnd l.length rTr)).length
      + (l.drop (testEnd l.length rTr rTe)).length = l.length := by
  have hab : trainEnd l.length rTr ≤ testEnd l.length rTr rTe := trainEnd_le_testEnd _ hTe
  have hbn : testEnd l.length rTr rTe ≤ l.length := testEnd_le _ hVa hsum
  have hcat : l.take (trainEnd l.length rTr)
      ++ (l.take (testEnd l.length rTr rTe)).drop (trainEnd l.length rTr)
      ++ l.drop (testEnd l.length rTr rTe) = l := by
    have h1 : (l.take (testEnd l.length rTr rTe)).take (trainEnd l.length rTr)
        = l.take (trainEnd l.length rTr) := by
      rw [List.take_take, min_eq_left hab]
    calc l.take (trainEnd l.length rTr)
          ++ (l.take (testEnd l.length rTr rTe)).drop (trainEnd l.length rTr)
          ++ l.drop (testEnd l.length rTr rTe)
        = ((l.take (testEnd l.length rTr rTe)).take (trainEnd l.length rTr)
          ++ (l.take (testEnd l.length rTr rTe)).drop (trainEnd l.length rTr))
          ++ l.drop (testEnd l.length rTr rTe) := by rw [h1, List.append_assoc]
      _ = l.take (testEnd l.length rTr rTe) ++ l.drop (testEnd l.length rTr rTe) := by
          rw [List.take_append_drop]
      _ = l := List.take_append_drop _ _
  refine ⟨hab, hbn, by omega, hcat, ?_⟩
  have := congrArg List.length hcat
  simp only [List.length_append] at this
  omega

/-- Witness for C2 at sizes 6 with ratios one half, one third, one sixth. -/
theorem split_partitions_interleaved_witness :
    ((0 : ℚ) ≤ 1/2 ∧ (0 : ℚ) ≤ 1/3 ∧ (0 : ℚ) ≤ 1/6 ∧ (1/2 : ℚ) + 1/3 + 1/6 = 1)
  ∧ (trainEnd ([0, 1, 2, 3, 4, 5] : List Nat).length (1/2)
        ≤ testEnd ([0, 1, 2, 3, 4, 5] : List Nat).length (1/2) (1/3)
    ∧ testEnd ([0, 1, 2, 3, 4, 5] : List Nat).length (1/2) (1/3)
        ≤ ([0, 1, 2, 3, 4, 5] : List Nat).length
    ∧ trainEnd ([0, 1, 2, 3, 4, 5] : List Nat).length (1/2)
        + (testEnd ([0, 1, 2, 3, 4, 5] : List Nat).length (1/2) (1/3)
           - trainEnd ([0, 1, 2, 3, 4, 5] : List Nat).length (1/2))
        + (([0, 1, 2, 3, 4, 5] : List Nat).length
           - testEnd ([0, 1, 2, 3, 4, 5] : List Nat).length (1/2) (1/3))
        = ([0, 1, 2, 3, 4, 5] : List Nat).length
    ∧ ([0, 1, 2, 3, 4, 5] : List Nat).take
          (trainEnd ([0, 1, 2, 3, 4, 5] : List Nat).length (1/2))
        ++ (([0, 1, 2, 3, 4, 5] : List Nat).take
              (testEnd ([0, 1, 2, 3, 4, 5] : List Nat).length (1/2) (1/3))).drop
            (trainEnd ([0, 1, 2, 3, 4, 5] : List Nat).length (1/2))
        ++ ([0, 1, 2, 3, 4, 5] : List Nat).drop
            (testEnd ([0, 1, 2, 3, 4, 5] : List Nat).length (1/2) (1/3))
        = [0, 1, 2, 3, 4, 5]
    ∧ (([0, 1, 2, 3, 4, 5] : List Nat).take
          (trainEnd ([0, 1, 2, 3, 4, 5] : List Nat).length (1/2))).length
        + ((([0, 1, 2, 3, 4, 5] : List Nat).take
              (testEnd ([0, 1, 2, 3, 4, 5] : List Nat).length (1/2) (1/3))).drop
            (trainEnd ([0, 1, 2, 3, 4, 5] : List Nat).length (1/2))).length
        + (([0, 1, 2, 3, 4, 5] : List Nat).drop
            (testEnd ([0, 1, 2, 3, 4, 5] : List Nat).length (1/2) (1/3))).length
        = ([0, 1, 2, 3, 4, 5] : List Nat).length) :=
  ⟨⟨by norm_num, by norm_num, by norm_num, by norm_num⟩,
    split_partitions_interleaved [0, 1, 2, 3, 4, 5] (1/2) (1/3) (1/6)
      (by norm_num) (by norm_num) (by norm_num) (by norm_num)⟩

/-! ### The assembler entry (`create_dataset.py`, lines 32-133)

The guard at lines 32-34 prints an error and returns before any loading,
interleaving, splitting or file writing; both early-return reasons are
modelled as `Except` errors, the successful path returns the three splits. -/

/-- Early-return reasons of `create_sentiment_datasets`. -/
inductive DsError where
  | configError
  | noData
deriving DecidableEq

/-- Model of `create_sentiment_datasets` on already-loaded class lists:
ratio guard, collection of the non-empty class lists, interleave, and
positional split.  Returning `Except.error` models the early `return`,
before which no interleaving, splitting or file output happens. -/
def createSentimentDatasets (rTr rTe rVa : ℚ) (neg neu pos : List α) :
    Except DsError (List α × List α × List α) :=
  if ¬(rTr + rTe + rVa = 1) then .error .configError
  else
    let items := (if neg.isEmpty then [] else [neg])
      ++ (if neu.isEmpty then [] else [neu])
      ++ (if pos.isEmpty then [] else [pos])
    if items.isEmpty then .error .noData
    else
      let inter := interleave items
      if inter.isEmpty then .error .noData
      else
        .ok (inter.take (trainEnd inter.length rTr),
          (inter.take (testEnd inter.length rTr rTe)).drop (trainEnd inter.length rTr),
          inter.drop (testEnd inter.length rTr rTe))

/-- C4: when the three ratios do not sum to exactly one the assembler fails
with the configuration error before performing any work; no split triple is
produced. -/
theorem bad_ratio_sum_aborts {α : Type} (rTr rTe rVa : ℚ) (neg neu pos : List α)
    (h : rTr + rTe + rVa ≠ 1) :
    createSentimentDatasets rTr rTe rVa neg neu pos = .error .configError := by
  simp [createSentimentDatasets, h]

/-- Witness for C4: ratios one half each sum to three halves, not one. -/
theorem bad_ratio_sum_aborts_witness :
    ((1/2 : ℚ) + 1/2 + 1/2 ≠ 1)
  ∧ createSentimentDatasets (1/2) (1/2) (1/2) ([0] : List Nat) [1] [2]
      = .error .configError :=
  ⟨by norm_num,
    bad_ratio_sum_aborts (1/2) (1/2) (1/2) [0] [1] [2] (by norm_num)⟩

/-! ### File sink (`create_dataset.py`, lines 144-168)

Each split writes a text file and a labels file with the loop
`f.write(str(item) + '\n')`; an empty split is skipped before either file is
created.  A file is its list of characters; the text and label of one
example are modelled as rendered character lists. -/

/-- Content produced by writing each item followed by a newline. -/
def writeLines (items : List (List Char)) : List Char :=
  items.foldr (fun s acc => s ++ '\n' :: acc) []

/-- Split file content at newlines (the lines of the file; a trailing
newline yields a final empty fragment). -/
def splitNl : List Char → List (List Char)
  | [] => [[]]
  | c :: r =>
    if c = '\n' then [] :: splitNl r
    else
      match splitNl r with
      | [] => [[c]]
      | h :: t => (c :: h) :: t

/-- Model of the per-split body of the saving loop: an empty split creates
no files, otherwise the text file and the labels file are written from the
same row sequence in the same order. -/
def saveSplit (rows : List (List Char × List Char)) : Option (List Char × List Char) :=
  if rows.isEmpty then none
  else some (writeLines (rows.map Prod.fst), writeLines (rows.map fun r => r.2))

lemma splitNl_append_newline {s w : List Char} (h : '\n' ∉ s) :
    splitNl (s ++ '\n' :: w) = s :: splitNl w := by
  induction s with
  | nil => simp [splitNl]
  | cons c s ih =>
    have hc : c ≠ '\n' := fun hcn => h (hcn ▸ List.mem_cons_self c s)
    have hs : '\n' ∉ s := fun hm => h (List.mem_cons_of_mem c hm)
    rw [List.cons_append, splitNl, if_neg hc, ih hs]

lemma splitNl_writeLines {items : List (List Char)} (h : ∀ s ∈ items, '\n' ∉ s) :
    splitNl (writeLines items) = items ++ [[]] := by
  induction items with
  | nil => rfl
  | cons s rest ih =>
    have hs := h s (List.mem_cons_self s rest)
    have hr := fun t ht => h t (List.mem_cons_of_mem s ht)
    show splitNl (s ++ '\n' :: writeLines rest) = (s :: rest) ++ [[]]
    rw [splitNl_append_newline hs, ih hr]
    rfl

lemma count_newline_writeLines {items : List (List Char)} (h : ∀ s ∈ items, '\n' ∉ s) :
    (writeLines items).count '\n' = items.length := by
  induction items with
  | nil => rfl
  | cons s rest ih =>
    have hs := h s (List.mem_cons_self s rest)
    have hr := fun t ht => h t (List.mem_cons_of_mem s ht)
    show (s ++ '\n' :: writeLines rest).count '\n' = rest.length + 1
    rw [List.count_append, List.count_cons_self, List.count_eq_zero.mpr hs, ih hr]
    omega

/-- C9: for a split, either the split is empty and neither file is created,
or both files are written from the same row sequence: the lines of the text
file are exactly the example texts in order, the lines of the labels file
are exactly the labels in order, and the newline counts of the two files
agree with the number of examples, so line i of each file refers to
example i. -/
theorem sink_files_line_aligned (rows : List (List Char × List Char))
    (h : ∀ r ∈ rows, '\n' ∉ r.1 ∧ '\n' ∉ r.2) :
    (rows = [] → saveSplit rows = none)
  ∧ ∀ ft fl, saveSplit rows = some (ft, fl) →
      splitNl ft = rows.map Prod.fst ++ [[]]
    ∧ splitNl fl = (rows.map fun r => r.2) ++ [[]]
    ∧ ft.count '\n' = rows.length
    ∧ fl.count '\n' = rows.length := by
  constructor
  · rintro rfl
    rfl
  · intro ft fl hsome
    have hrows : ¬ rows.isEmpty := by
      intro he
      rw [saveSplit, if_pos he] at hsome
      exact Option.noConfusion hsome
    rw [saveSplit, if_neg hrows] at hsome
    obtain ⟨rfl, rfl⟩ : writeLines (rows.map Prod.fst) = ft
        ∧ writeLines (rows.map fun r => r.2) = fl := by
      have := Option.some.inj hsome
      exact ⟨congrArg Prod.fst this, congrArg Prod.snd this⟩
    have h1 : ∀ s ∈ rows.map Prod.fst, '\n' ∉ s := by
      intro s hs
      obtain ⟨r, hr, rfl⟩ := List.mem_map.mp hs
      exact (h r hr).1
    have h2 : ∀ s ∈ rows.map fun r => r.2, '\n' ∉ s := by
      intro s hs
      obtain ⟨r, hr, rfl⟩ := List.mem_map.mp hs
      exact (h r hr).2
    refine ⟨splitNl_writeLines h1, splitNl_writeLines h2, ?_, ?_⟩
    · rw [count_newline_writeLines h1, List.length_map]
    · rw [count_newline_writeLines h2, List.length_map]

/-- Witness for C9 on two rows. -/
theorem sink_files_line_aligned_witness :
    (∀ r ∈ [(['a'], ['0']), (['b'], ['1'])], '\n' ∉ r.1 ∧ '\n' ∉ r.2)
  ∧ ((([(['a'], ['0']), (['b'], ['1'])] : List (List Char × List Char)) = [] →
        saveSplit [(['a'], ['0']), (['b'], ['1'])] = none)
    ∧ ∀ ft fl, saveSplit [(['a'], ['0']), (['b'], ['1'])] = some (ft, fl) →
        splitNl ft = [(['a'], ['0']), (['b'], ['1'])].map Prod.fst ++ [[]]
      ∧ splitNl fl = ([(['a'], ['0']), (['b'], ['1'])].map fun r => r.2) ++ [[]]
      ∧ ft.count '\n' = [(['a'], ['0']), (['b'], ['1'])].length
      ∧ fl.count '\n' = [(['a'], ['0']), (['b'], ['1'])].length) :=
  ⟨by decide, sink_files_line_aligned [(['a'], ['0']), (['b'], ['1'])] (by decide)⟩

/-! ### JSONL to CSV conversion (`jsonl.py`, lines 20-64)

A parsed line is `none` when `json.loads` fails, otherwise the optional
`text` and `sentiment` fields.  `str.lower` is modelled over the ASCII
range with `Char.toLower`. -/

/-- ASCII model of Python `str.lower()`. -/
def pyLower (s : String) : String := String.mk (s.data.map Char.toLower)

/-- Model of `sentiment_to_polarity.get`: neutral 1, negative 0, positive 2. -/
def sentToPol (s : String) : Option Int :=
  if s = "neutral" then some 1
  else if s = "negative" then some 0
  else if s = "positive" then some 2
  else none

/-- Processing of one parsed JSONL line: skip on JSON failure, skip when
`text` or `sentiment` is missing, skip unknown sentiments, otherwise emit
the polarity and the text. -/
def convertLine : Option (Option String × Option String) → Option (Int × String)
  | none => none
  | some (topt, sopt) =>
    match topt, sopt with
    | some t, some s =>
      match sentToPol (pyLower s) with
      | some p => some (p, t)
      | none => none
    | some _, none => none
    | none, _ => none

/-- Model of `convert_jsonl_to_sentiment_csv` from parsed lines to the
output rows, in input order. -/
def convertJsonl (lines : List (Option (Option String × Option String))) :
    List (Int × String) :=
  lines.filterMap convertLine

/-- C10: every row the converter emits has polarity zero, one or two, this
polarity is the mapping of the lowercased sentiment of some input line and
the text is taken from that same line; and a line that failed JSON parsing,
lacks a field, or carries an unknown sentiment contributes no row. -/
theorem jsonl_rows_well_formed :
    (∀ (lines : List (Option (Option String × Option String))) (p : Int) (t : String),
      (p, t) ∈ convertJsonl lines →
        (p = 0 ∨ p = 1 ∨ p = 2)
      ∧ ∃ ln ∈ lines, ∃ s, ln = some (some t, some s) ∧ sentToPol (pyLower s) = some p)
  ∧ convertLine none = none
  ∧ (∀ sopt, convertLine (some (none, sopt)) = none)
  ∧ (∀ topt, convertLine (some (topt, none)) = none)
  ∧ (∀ t s, sentToPol (pyLower s) = none → convertLine (some (some t, some s)) = none) := by
  refine ⟨?_, rfl, fun sopt => rfl, fun topt => ?_, fun t s h => ?_⟩
  · intro lines p t hmem
    obtain ⟨ln, hln, hconv⟩ := List.mem_filterMap.mp hmem
    rcases ln with _ | ⟨topt, sopt⟩
    · exact absurd hconv (by simp [convertLine])
    rcases topt with _ | t'
    · exact absurd hconv (by simp [convertLine])
    rcases sopt with _ | s'
    · exact absurd hconv (by simp [convertLine])
    rcases hp : sentToPol (pyLower s') with _ | p'
    · simp [convertLine, hp] at hconv
    · simp only [convertLine, hp] at hconv
      obtain ⟨rfl, rfl⟩ : p' = p ∧ t' = t := by
        have h2 := Option.some.inj hconv
        exact ⟨congrArg Prod.fst h2, congrArg Prod.snd h2⟩
      refine ⟨?_, some (some t', some s'), hln, s', rfl, hp⟩
      rw [sentToPol] at hp
      split_ifs at hp
      · exact Or.inr (Or.inl (Option.some.inj hp).symm)
      · exact Or.inl (Option.some.inj hp).symm
      · exact Or.inr (Or.inr (Option.some.inj hp).symm)
  · cases topt <;> rfl
  · rw [convertLine, h]

/-- Witness for C10 on three parsed lines. -/
theorem jsonl_rows_well_formed_witness :
    (((2 : Int), "ok") ∈
      convertJsonl [some (some "ok", some "Positive"), none, some (none, some "negative")])
  ∧ (((2 : Int) = 0 ∨ (2 : Int) = 1 ∨ (2 : Int) = 2)
    ∧ ∃ ln ∈ [some (some "ok", some "Positive"), none, some (none, some "negative")],
        ∃ s, ln = some (some "ok", some s) ∧ sentToPol (pyLower s) = some 2) :=
  ⟨by decide,
    jsonl_rows_well_formed.1
      [some (some "ok", some "Positive"), none, some (none, some "negative")]
      2 "ok" (by decide)⟩

/-! ### Class sampler (`process_csv.py`, lines 19-107)

Rows carry an index label `lbl` (the pandas index) and an immutable source
identity `src`; in the input frame the two coincide, but
`pd.concat(..., ignore_index=True)` at line 79 resets `lbl` to the
position while `src` still names the originating row of the bucket.
`pool.sample(n=n, random_state=seed)` is abstracted as an oracle function
`pick seed n pool`; the model records every seed it passes to the oracle. -/

/-- A row of the filtered input bucket (the pandas frame `df_filtered`). -/
structure SRow where
  lbl : Nat
  src : Nat
  rt : Option (List Char)
  rtp : Option (List Char)
deriving DecidableEq

/-- An accumulated cleaned row of `final_sample_df`. -/
structure FRow where
  lbl : Nat
  src : Nat
  text : List Char
deriving DecidableEq

/-- pandas `df.drop(labels)`: rows whose index label occurs in `labels` are
removed; a label absent from the index raises `KeyError`, modelled as the
error case. -/
def dfDrop (df : List SRow) (labels : List Nat) : Except Unit (List SRow) :=
  if labels.all (fun lb => df.any fun r => r.lbl = lb) then
    .ok (df.filter fun r => ¬ labels.contains r.lbl)
  else .error ()

/-- Cleaning of one sampled row (lines 58-76): clean both text columns,
keep the row when at least one cleaned text is non-empty, preferring the
cleaned `review_text` and falling back to `review_text_processed`. -/
def cleanRow (r : SRow) : Option FRow :=
  if cleanText r.rt ≠ [] then some ⟨r.lbl, r.src, cleanText r.rt⟩
  else if cleanText r.rtp ≠ [] then some ⟨r.lbl, r.src, cleanText r.rtp⟩
  else none

/-- Model of `pd.concat([...], ignore_index=True)` (line 79): the accumulated frame
gets a fresh positional index 0, 1, 2, ... -/
def reindex (l : List FRow) : List FRow :=
  l.enum.map fun p => ⟨p.1, p.2.src, p.2.text⟩

/-- Value of `current_sample_size` in the iteration: `min(int(sample_size * 1.5),
len(df_filtered))` on the first attempt; afterwards
`min(int(needed_samples * 1.8), remaining_data)`, where `remaining_data`
can be negative as an integer difference. -/
def currentOf (df : List SRow) (target attempts : Nat) (final : List FRow) : Int :=
  if attempts = 0 then min ((3 * target : Int) / 2) (df.length : Int)
  else min ((9 * (target - final.length) : Int) / 5) ((df.length : Int) - final.length)

/-- Model of the `while` loop of lines 32-83 with `fuel` iterations remaining out of
`max_attempts = 3`.  Each iteration draws `min(current_sample_size,
len(available))` rows from `available = df_filtered.drop(final.index)`
with `random_state = 57 + attempts`, cleans them and concatenates with
`ignore_index=True`.  `int(x * 1.5)` and `int(x * 1.8)` are the floors
3x/2 and 9x/5. -/
def runLoop (pickR : Nat → Nat → List SRow → List SRow) (df : List SRow) (target : Nat) :
    Nat → Nat → List FRow → List Nat → Except Unit (List FRow × List Nat)
  | 0, _, final, seeds => .ok (final, seeds)
  | fuel + 1, attempts, final, seeds =>
    if final.length < target then
      if currentOf df target attempts final ≤ 0 then .ok (final, seeds)
      else
        match (if final.length ≠ 0 then dfDrop df (final.map FRow.lbl) else .ok df) with
        | .error e => .error e
        | .ok avail =>
          if avail.isEmpty then .ok (final, seeds)
          else
            runLoop pickR df target fuel (attempts + 1)
              (reindex (final ++ (pickR (57 + attempts)
                (min (currentOf df target attempts final).toNat avail.length)
                avail).filterMap cleanRow))
              (seeds ++ [57 + attempts])
    else .ok (final, seeds)

/-- Model of `process_and_save_sample`: empty bucket returns nothing, then
the retry loop, then the final truncation draw with `random_state = 57`
(line 87) when the accumulated sample exceeds the target. -/
def processSample (pickR : Nat → Nat → List SRow → List SRow)
    (pickF : Nat → Nat → List FRow → List FRow) (df : List SRow) (target : Nat) :
    Except Unit (List FRow × List Nat) :=
  if df.isEmpty then .ok ([], [])
  else
    match runLoop pickR df target 3 0 [] [] with
    | .error e => .error e
    | .ok (final, seeds) =>
      if target < final.length then .ok (pickF 57 target final, seeds ++ [57])
      else .ok (final, seeds)

/-- A concrete admissible draw: the first n rows of the pool. -/
def pickTake {β : Type} (_seed n : Nat) (pool : List β) : List β := pool.take n

/-- A concrete admissible draw that picks the last rows, in reverse pool
order, on the second retry round and the first rows otherwise. -/
def pickRev {β : Type} (seed n : Nat) (pool : List β) : List β :=
  if seed = 58 then pool.reverse.take n else pool.take n

/-- A bucket row whose both text fields clean to the empty string. -/
def rowE (i : Nat) : SRow := ⟨i, i, some ['!', '!', '!'], none⟩

/-- A bucket row whose text cleans to the non-empty string ab. -/
def rowV (i : Nat) : SRow := ⟨i, i, some ['a', 'b'], none⟩

/-- A four-row bucket: the first two rows clean to empty. -/
def dfDup : List SRow := [rowE 0, rowE 1, rowV 2, rowV 3]

/-- C3 failing run: after the first round selects source rows 2 and 3, the
`ignore_index=True` concat renames them to index labels 0 and 1, so the
retry round drops bucket rows 0 and 1 instead of the selected ones and the
pool offered to the second draw still contains source rows 2 and 3.  The
run returns rows whose source identities are 2, 3, 2: source row 2 is
drawn twice, refuting uniqueness by source identity. -/
theorem sampler_duplicates_source_row :
    processSample pickTake pickTake dfDup 3
      = .ok ([⟨0, 2, ['a', 'b']⟩, ⟨1, 3, ['a', 'b']⟩, ⟨2, 2, ['a', 'b']⟩], [57, 58])
  ∧ ([⟨0, 2, ['a', 'b']⟩, ⟨1, 3, ['a', 'b']⟩,
      (⟨2, 2, ['a', 'b']⟩ : FRow)].map FRow.src = [2, 3, 2]
      ∧ ¬ (([2, 3, 2] : List Nat).Nodup)) :=
  ⟨rfl, by decide, by decide⟩

/-- A bucket whose pandas index labels are 10, 11, 12, 13; three rows are
cleanable, one cleans to empty. -/
def dfShort : List SRow := [rowV 10, rowV 11, rowV 12, rowE 13]

/-- C5 failing run: target 4 with only 3 cleanable rows.  The claim says
the sampler returns the 3 rows and reports the shortfall non-fatally; the
code instead raises `KeyError` in the retry round, because the concat with
`ignore_index=True` renamed the accumulated rows to index labels 0, 1, 2,
which are then dropped from a frame whose labels are 10 to 13. -/
theorem sampler_raises_on_shortfall :
    processSample pickTake pickTake dfShort 4 = .error () := rfl

/-- An eight-row bucket: rows 0 to 3 clean to empty, rows 4 to 7 are valid. -/
def dfOver : List SRow :=
  [rowE 0, rowE 1, rowE 2, rowE 3, rowV 4, rowV 5, rowV 6, rowV 7]

lemma runLoop_seeds (pickR : Nat → Nat → List SRow → List SRow) (df : List SRow)
    (target : Nat) :
    ∀ (fuel attempts : Nat) (final : List FRow) (seeds : List Nat)
      (out : List FRow) (s2 : List Nat),
      runLoop pickR df target fuel attempts final seeds = .ok (out, s2) →
      ∃ k, k ≤ fuel ∧ s2 = seeds ++ List.range' (57 + attempts) k := by
  intro fuel
  induction fuel with
  | zero =>
    intro attempts final seeds out s2 h
    refine ⟨0, le_refl _, ?_⟩
    have h2 := Except.ok.inj h
    simpa using (congrArg Prod.snd h2).symm
  | succ fuel ih =>
    intro attempts final seeds out s2 h
    rw [runLoop] at h
    split at h
    · split at h
      · refine ⟨0, by omega, ?_⟩
        have h2 := Except.ok.inj h
        simpa using (congrArg Prod.snd h2).symm
      · split at h
        · exact absurd h (by simp)
        · split at h
          · refine ⟨0, by omega, ?_⟩
            have h2 := Except.ok.inj h
            simpa using (congrArg Prod.snd h2).symm
          · obtain ⟨k, hk, hs⟩ := ih _ _ _ _ _ h
            refine ⟨k + 1, by omega, ?_⟩
            rw [hs, List.append_assoc]
            congr 1
    · refine ⟨0, by omega, ?_⟩
      have h2 := Except.ok.inj h
      simpa using (congrArg Prod.snd h2).symm

/-- C8 (as amended): every random draw of the class sampler is
deterministically seeded by the fixed base 57 plus the retry round index,
and a final truncation draw, when taken, reuses the fixed seed 57; the seed
trace of any successful run is 57, 58, ... up to at most three retry
rounds, optionally followed by 57. -/
theorem sampler_seed_schedule (pickR : Nat → Nat → List SRow → List SRow)
    (pickF : Nat → Nat → List FRow → List FRow) (df : List SRow) (target : Nat)
    (out : List FRow) (seeds : List Nat)
    (h : processSample pickR pickF df target = .ok (out, seeds)) :
    ∃ k, k ≤ 3 ∧ (seeds = List.range' 57 k ∨ seeds = List.range' 57 k ++ [57]) := by
  rw [processSample] at h
  split at h
  · refine ⟨0, by omega, Or.inl ?_⟩
    have h2 := Except.ok.inj h
    simpa using (congrArg Prod.snd h2).symm
  · split at h
    · exact absurd h (by simp)
    · rename_i final seeds2 heq
      obtain ⟨k, hk, hs⟩ := runLoop_seeds pickR df target 3 0 [] [] final seeds2 heq
      simp only [List.nil_append] at hs
      split at h
      · refine ⟨k, hk, Or.inr ?_⟩
        have h2 := Except.ok.inj h
        have h3 := (congrArg Prod.snd h2).symm
        simpa [hs] using h3
      · refine ⟨k, hk, Or.inl ?_⟩
        have h2 := Except.ok.inj h
        have h3 := (congrArg Prod.snd h2).symm
        simpa [hs] using h3

/-- Witness for C8: the seed trace of the concrete overshooting run,
57 then 58 then 57 again for the truncation draw. -/
theorem sampler_seed_schedule_witness :
    ∃ k, k ≤ 3 ∧ (([57, 58, 57] : List Nat) = List.range' 57 k
      ∨ ([57, 58, 57] : List Nat) = List.range' 57 k ++ [57]) :=
  sampler_seed_schedule pickRev pickTake dfOver 4
    [⟨0, 4, ['a', 'b']⟩, ⟨1, 5, ['a', 'b']⟩, ⟨2, 7, ['a', 'b']⟩, ⟨3, 6, ['a', 'b']⟩]
    [57, 58, 57] rfl

/-- C8 counterexample: a run whose three draws carry seeds 57, 58, 57 -
the truncation draw reuses the fixed 57 - so the seed trace is not of the
form s, s + 1, s + 2 for any base seed s, refuting that every draw is
seeded by a caller-supplied seed plus its round index. -/
theorem sampler_seed_not_caller_plus_round :
    processSample pickRev pickTake dfOver 4
      = .ok ([⟨0, 4, ['a', 'b']⟩, ⟨1, 5, ['a', 'b']⟩, ⟨2, 7, ['a', 'b']⟩,
              ⟨3, 6, ['a', 'b']⟩], [57, 58, 57])
  ∧ ∀ s : Nat, ([57, 58, 57] : List Nat) ≠ [s, s + 1, s + 2] := by
  constructor
  · rfl
  · intro s h
    simp only [List.cons.injEq, and_true] at h
    omega

/-! ### Idempotence of the `process_csv.py` normalizer

The normal form of `cleanStr` is characterized by: every character is a
word character or a single space, no two adjacent spaces, no three adjacent
equal characters, and no space at either end.  Each pipeline stage fixes
strings of this shape, and the pipeline output has this shape. -/

/-- Predicate: `u` occurs as a contiguous segment of `l`. -/
def SubSeg (u l : List Char) : Prop := ∃ s t, l = s ++ u ++ t

/-- Characters of the normal form: word characters or the plain space. -/
def goodChar (c : Char) : Bool := isWordChar c || c = ' '

/-- No two adjacent whitespace characters. -/
def NoDbl (l : List Char) : Prop :=
  List.Chain' (fun a b => ¬(isSpaceChar a = true ∧ isSpaceChar b = true)) l

lemma subSeg_append_left {u X Y : List Char} (h : SubSeg u X) : SubSeg u (X ++ Y) := by
  obtain ⟨s, t, rfl⟩ := h
  exact ⟨s, t ++ Y, by simp⟩

lemma subSeg_append_right {u X Y : List Char} (h : SubSeg u Y) : SubSeg u (X ++ Y) := by
  obtain ⟨s, t, rfl⟩ := h
  exact ⟨X ++ s, t, by simp⟩

lemma subSeg_cons {u : List Char} {c : Char} {l : List Char} (h : SubSeg u l) :
    SubSeg u (c :: l) :=
  @subSeg_append_right u [c] l h

lemma subSeg_mem {u l : List Char} (h : SubSeg u l) {x : Char} (hx : x ∈ u) : x ∈ l := by
  obtain ⟨s, t, rfl⟩ := h
  simp [hx]

lemma subSeg_length {u l : List Char} (h : SubSeg u l) : u.length ≤ l.length := by
  obtain ⟨s, t, rfl⟩ := h
  simp
  omega

lemma subSeg_cons_elim {a c : Char} {X : List Char} (h : SubSeg [a, a, a] (c :: X)) :
    (c = a ∧ ∃ t, X = a :: a :: t) ∨ SubSeg [a, a, a] X := by
  obtain ⟨s, t, hs⟩ := h
  cases s with
  | nil =>
    simp only [List.nil_append, List.cons_append, List.cons.injEq] at hs
    obtain ⟨rfl, rfl⟩ := hs
    exact Or.inl ⟨rfl, t, by simp⟩
  | cons d s =>
    simp only [List.cons_append, List.cons.injEq] at hs
    exact Or.inr ⟨s, t, hs.2⟩

/-- A triple segment of an append lies in the left part, in the right part,
or straddles the boundary, in which case the left part ends with the
character and the right part starts with it. -/
lemma triple_split {a : Char} {X Y : List Char} (h : SubSeg [a, a, a] (X ++ Y)) :
    SubSeg [a, a, a] X ∨ SubSeg [a, a, a] Y
  ∨ (X.getLast? = some a ∧ Y.head? = some a) := by
  obtain ⟨s, t, hs⟩ := h
  have hs2 : X ++ Y = s ++ ([a, a, a] ++ t) := by rw [hs, List.append_assoc]
  rcases List.append_eq_append_iff.mp hs2 with ⟨u, hsu, hY⟩ | ⟨u, hX, hrest⟩
  · exact Or.inr (Or.inl ⟨u, t, by rw [hY, List.append_assoc]⟩)
  · rcases List.append_eq_append_iff.mp hrest with ⟨v, huv, htv⟩ | ⟨v, htriple, hYv⟩
    · exact Or.inl ⟨s, v, by rw [hX, huv, List.append_assoc]⟩
    · match u, htriple with
      | [], htriple =>
        simp only [List.nil_append] at htriple
        exact Or.inr (Or.inl ⟨[], t, by rw [hYv, htriple]; rfl⟩)
      | [x], htriple =>
        simp only [List.cons_append, List.nil_append, List.cons.injEq] at htriple
        obtain ⟨rfl, hv⟩ := htriple
        refine Or.inr (Or.inr ⟨?_, ?_⟩)
        · rw [hX, List.getLast?_concat]
        · rw [hYv, ← hv]
          rfl
      | [x, y], htriple =>
        simp only [List.cons_append, List.nil_append, List.cons.injEq] at htriple
        obtain ⟨rfl, rfl, hv⟩ := htriple
        refine Or.inr (Or.inr ⟨?_, ?_⟩)
        · rw [hX]
          show (s ++ ([a] ++ [a])).getLast? = some a
          rw [← List.append_assoc, List.getLast?_concat]
        · rw [hYv, ← hv]
          rfl
      | [x, y, z], htriple =>
        simp only [List.cons_append, List.nil_append, List.cons.injEq] at htriple
        obtain ⟨rfl, rfl, rfl, hv⟩ := htriple
        exact Or.inl ⟨s, [], by rw [hX]; simp⟩
      | x :: y :: z :: w :: u', htriple =>
        exact absurd (congrArg List.length htriple) (by simp)

lemma word_ne_newline {a : Char} (h : isWordChar a = true) : a ≠ '\n' := by
  intro he
  rw [he] at h
  exact absurd h (by decide)

lemma word_ne_space {a : Char} (h : isWordChar a = true) : a ≠ ' ' := by
  intro he
  rw [he] at h
  exact absurd h (by decide)

lemma space_cases {a : Char} (h : isSpaceChar a = true) :
    a = ' ' ∨ a = '\t' ∨ a = '\n' ∨ a = '\r' := by
  have h2 : ((a = ' ' ∨ a = '\t') ∨ a = '\n') ∨ a = '\r' := by simpa [isSpaceChar] using h
  tauto

lemma word_not_space {a : Char} (h : isWordChar a = true) : isSpaceChar a = false := by
  cases hsp : isSpaceChar a with
  | false => rfl
  | true =>
    rcases space_cases hsp with rfl | rfl | rfl | rfl <;> exact absurd h (by decide)

lemma good_space_eq {c : Char} (hg : goodChar c = true) (hs : isSpaceChar c = true) :
    c = ' ' := by
  rcases Bool.or_eq_true_iff.mp hg with hw | hsp
  · exact absurd hs (by rw [word_not_space hw]; simp)
  · simpa using hsp

lemma emitRun_cons {thr : Nat} {c : Char} {k : Nat} (h : 1 ≤ k) :
    ∃ u, emitRun thr c k = c :: u ∧ ∀ x ∈ u, x = c := by
  rw [emitRun]
  split_ifs
  · exact ⟨[], rfl, by simp⟩
  · match k, h with
    | k + 1, _ =>
      refine ⟨List.replicate k c, by rw [List.replicate_succ], ?_⟩
      intro x hx
      exact (List.mem_replicate.mp hx).2

lemma emitRun_mem {thr : Nat} {c x : Char} {k : Nat} (h : x ∈ emitRun thr c k) : x = c := by
  rw [emitRun] at h
  split_ifs at h
  · simpa using h
  · exact (List.mem_replicate.mp h).2

lemma emitRun_head {thr : Nat} {c : Char} {k : Nat} (h : 1 ≤ k) :
    (emitRun thr c k).head? = some c := by
  obtain ⟨u, hu, -⟩ := @emitRun_cons thr c k h
  rw [hu]
  rfl

lemma emitRun_getLast {thr : Nat} {c : Char} {k : Nat} (h : 1 ≤ k) :
    (emitRun thr c k).getLast? = some c := by
  rw [emitRun]
  split_ifs
  · rfl
  · match k, h with
    | k + 1, _ =>
      rw [List.replicate_succ' k c, List.getLast?_concat]

lemma emitRun3_noTriple {a c : Char} {k : Nat} (ha : a ≠ '\n') :
    ¬ SubSeg [a, a, a] (emitRun 3 c k) := by
  intro h
  by_cases hc : c = a
  · subst hc
    have hlen := subSeg_length h
    rw [emitRun] at hlen
    split_ifs at hlen with hcond
    · simp at hlen
    · have hk : ¬ 3 ≤ k := fun h3 => hcond ⟨ha, h3⟩
      rw [List.length_replicate] at hlen
      simp at hlen
      omega
  · exact hc (emitRun_mem (subSeg_mem h (show a ∈ [a, a, a] by simp))).symm

lemma collapseGo_head {thr : Nat} : ∀ (rest : List Char) (c : Char) (k : Nat), 1 ≤ k →
    (collapseGo thr c k rest).head? = some c := by
  intro rest
  induction rest with
  | nil => exact fun c k hk => emitRun_head hk
  | cons d r ih =>
    intro c k hk
    rw [collapseGo]
    split_ifs with hd
    · exact ih c (k + 1) (by omega)
    · obtain ⟨u, hu, -⟩ := @emitRun_cons thr c k hk
      rw [hu]
      rfl

lemma collapseGo3_wordBound : ∀ (rest : List Char) (c : Char) (k : Nat) (a : Char),
    a ≠ '\n' → 1 ≤ k → ¬ SubSeg [a, a, a] (collapseGo 3 c k rest) := by
  intro rest
  induction rest with
  | nil => exact fun c k a ha _ => emitRun3_noTriple ha
  | cons d r ih =>
    intro c k a ha hk h
    rw [collapseGo] at h
    split_ifs at h with hd
    · exact ih c (k + 1) a ha (by omega) h
    · rcases triple_split h with h1 | h1 | ⟨h1, h2⟩
      · exact emitRun3_noTriple ha h1
      · exact ih d 1 a ha (by omega) h1
      · rw [emitRun_getLast hk] at h1
        rw [collapseGo_head r d 1 (by omega)] at h2
        exact hd ((Option.some.inj h2).trans (Option.some.inj h1).symm)

/-- No three adjacent equal characters anywhere in `l`. -/
def NoTriple (l : List Char) : Prop := ∀ a : Char, ¬ SubSeg [a, a, a] l

lemma collapse3_wordBound {l : List Char} {a : Char} (ha : isWordChar a = true) :
    ¬ SubSeg [a, a, a] (collapse3 l) := by
  cases l with
  | nil =>
    intro h
    have := subSeg_length h
    simp [collapse3] at this
  | cons c rest => exact collapseGo3_wordBound rest c 1 a (word_ne_newline ha) (by omega)

lemma replicate_triple_subseg {c : Char} {k : Nat} (h3 : 3 ≤ k) :
    SubSeg [c, c, c] (List.replicate k c) := by
  obtain ⟨m, rfl⟩ : ∃ m, k = 3 + m := ⟨k - 3, by omega⟩
  refine ⟨[], List.replicate m c, ?_⟩
  rw [List.replicate_add]
  rfl

lemma replicate_shift (k : Nat) (c : Char) (r : List Char) :
    List.replicate k c ++ c :: r = List.replicate (k + 1) c ++ r := by
  rw [List.replicate_succ' k c, List.append_assoc]
  rfl

lemma collapseGo3_fix : ∀ (rest : List Char) (c : Char) (k : Nat),
    NoTriple (List.replicate k c ++ rest) →
    collapseGo 3 c k rest = List.replicate k c ++ rest := by
  intro rest
  induction rest with
  | nil =>
    intro c k h
    have hk : ¬ (c ≠ '\n' ∧ 3 ≤ k) := by
      rintro ⟨-, h3⟩
      exact h c (subSeg_append_left (replicate_triple_subseg h3))
    rw [collapseGo, emitRun, if_neg hk, List.append_nil]
  | cons d r ih =>
    intro c k h
    rw [collapseGo]
    split_ifs with hd
    · subst hd
      rw [replicate_shift] at h ⊢
      exact ih d (k + 1) h
    · have hk : ¬ (c ≠ '\n' ∧ 3 ≤ k) := by
        rintro ⟨-, h3⟩
        exact h c (subSeg_append_left (replicate_triple_subseg h3))
      have h2 : NoTriple (List.replicate 1 d ++ r) := by
        intro a ha
        exact h a (subSeg_append_right (by simpa using ha))
      rw [emitRun, if_neg hk, ih d 1 h2]
      simp

lemma collapse3_fix {l : List Char} (h : NoTriple l) : collapse3 l = l := by
  cases l with
  | nil => rfl
  | cons c rest =>
    have h2 : NoTriple (List.replicate 1 c ++ rest) := by simpa using h
    have := collapseGo3_fix rest c 1 h2
    simpa [collapse3] using this

lemma map_id_on {f : Char → Char} (l : List Char) (h : ∀ c ∈ l, f c = c) :
    l.map f = l := by
  induction l with
  | nil => rfl
  | cons c r ih =>
    rw [List.map_cons, h c (List.mem_cons_self c r),
      ih fun x hx => h x (List.mem_cons_of_mem c hx)]

lemma map_eq_three {f : Char → Char} {l : List Char} {x y z : Char}
    (h : l.map f = [x, y, z]) :
    ∃ c1 c2 c3, l = [c1, c2, c3] ∧ f c1 = x ∧ f c2 = y ∧ f c3 = z := by
  match l, h with
  | [c1, c2, c3], h =>
    simp only [List.map_cons, List.map_nil, List.cons.injEq, and_true] at h
    exact ⟨c1, c2, c3, rfl, h.1, h.2.1, h.2.2⟩
  | [], h => simp at h
  | [c1], h => simp at h
  | [c1, c2], h => simp at h
  | c1 :: c2 :: c3 :: c4 :: r, h => simp at h

lemma subSeg_map_rev {f : Char → Char} {a : Char} {l : List Char}
    (hf : ∀ c, f c = a → c = a) (h : SubSeg [a, a, a] (l.map f)) :
    SubSeg [a, a, a] l := by
  obtain ⟨s, t, hs⟩ := h
  rw [List.append_assoc] at hs
  obtain ⟨s', rest, rfl, -, hrest⟩ := List.map_eq_append_iff.mp hs
  obtain ⟨m, t', rfl, hm, -⟩ := List.map_eq_append_iff.mp hrest
  obtain ⟨c1, c2, c3, rfl, h1, h2, h3⟩ := map_eq_three hm
  obtain rfl := hf c1 h1
  obtain rfl := hf c2 h2
  obtain rfl := hf c3 h3
  exact ⟨s', t', by rw [List.append_assoc]⟩

lemma quotesToSpace_fix {l : List Char} (h : ∀ c ∈ l, goodChar c = true) :
    quotesToSpace l = l := by
  apply map_id_on
  intro c hc
  have hg := h c hc
  by_cases hq : c = quoteD ∨ c = quoteS
  · rcases hq with rfl | rfl <;> exact absurd hg (by decide)
  · simp [hq]

lemma nonWordToSpace_fix {l : List Char} (h : ∀ c ∈ l, goodChar c = true) :
    nonWordToSpace l = l := by
  apply map_id_on
  intro c hc
  have hg := h c hc
  rcases Bool.or_eq_true_iff.mp hg with hw | hsp
  · simp [hw]
  · have : c = ' ' := by simpa using hsp
    subst this
    simp [isSpaceChar]

lemma nonWordToSpace_chars {l : List Char} :
    ∀ x ∈ nonWordToSpace l, (isWordChar x || isSpaceChar x) = true := by
  intro x hx
  obtain ⟨c, -, rfl⟩ := List.mem_map.mp hx
  by_cases hc : (isWordChar c || isSpaceChar c) = true
  · simpa [hc] using hc
  · simp only [hc]
    simp [if_neg, isSpaceChar]

lemma nonWordToSpace_wordBound {l : List Char} {a : Char} (ha : isWordChar a = true)
    (h : ¬ SubSeg [a, a, a] l) : ¬ SubSeg [a, a, a] (nonWordToSpace l) := by
  intro hs
  apply h
  have hf : ∀ c : Char, (if isWordChar c || isSpaceChar c then c else ' ') = a → c = a := by
    intro c hc
    by_cases hcond : (isWordChar c || isSpaceChar c) = true
    · rwa [if_pos hcond] at hc
    · rw [if_neg hcond] at hc
      exact absurd hc.symm (word_ne_space ha)
  exact @subSeg_map_rev (fun c => if isWordChar c || isSpaceChar c then c else ' ') a l hf hs

lemma squeezeGo_chars : ∀ (l : List Char) (b : Bool) (x : Char), x ∈ squeezeGo b l →
    x = ' ' ∨ (x ∈ l ∧ isSpaceChar x = false) := by
  intro l
  induction l with
  | nil => intro b x hx; simp [squeezeGo] at hx
  | cons c r ih =>
    intro b x hx
    by_cases hsp : isSpaceChar c = true
    · rw [squeezeGo, if_pos hsp] at hx
      rcases List.mem_append.mp hx with hx1 | hx1
      · left
        cases b
        · simpa using hx1
        · simp at hx1
      · rcases ih true x hx1 with h1 | ⟨h1, h2⟩
        · exact Or.inl h1
        · exact Or.inr ⟨List.mem_cons_of_mem c h1, h2⟩
    · rw [squeezeGo, if_neg hsp] at hx
      rcases List.mem_cons.mp hx with rfl | hx1
      · exact Or.inr ⟨List.mem_cons_self _ _, by simpa using hsp⟩
      · rcases ih false x hx1 with h1 | ⟨h1, h2⟩
        · exact Or.inl h1
        · exact Or.inr ⟨List.mem_cons_of_mem c h1, h2⟩

lemma squeezeGo_head_true : ∀ (l : List Char) (c0 : Char),
    (squeezeGo true l).head? = some c0 → isSpaceChar c0 = false := by
  intro l
  induction l with
  | nil => intro c0 h; simp [squeezeGo] at h
  | cons c r ih =>
    intro c0 h
    by_cases hsp : isSpaceChar c = true
    · rw [squeezeGo, if_pos hsp] at h
      exact ih c0 (by simpa using h)
    · rw [squeezeGo, if_neg hsp] at h
      have : c = c0 := by simpa using h
      subst this
      simpa using hsp

lemma squeezeGo_nodbl : ∀ (l : List Char) (b : Bool), NoDbl (squeezeGo b l) := by
  intro l
  induction l with
  | nil => intro b; simp [squeezeGo, NoDbl]
  | cons c r ih =>
    intro b
    by_cases hsp : isSpaceChar c = true
    · rw [squeezeGo, if_pos hsp]
      cases b
      · show NoDbl (' ' :: squeezeGo true r)
        rw [NoDbl, List.chain'_cons']
        refine ⟨?_, ih true⟩
        intro h hh
        rintro ⟨-, hsp2⟩
        rw [squeezeGo_head_true r h hh] at hsp2
        exact Bool.false_ne_true hsp2
      · show NoDbl (squeezeGo true r)
        exact ih true
    · rw [squeezeGo, if_neg hsp]
      show NoDbl (c :: squeezeGo false r)
      rw [NoDbl, List.chain'_cons']
      refine ⟨?_, ih false⟩
      intro h hh
      rintro ⟨hsp1, -⟩
      exact hsp hsp1

lemma squeezeGo_false_cons : ∀ (l : List Char) (x : Char) (u : List Char),
    squeezeGo false l = x :: u → isSpaceChar x = false →
    ∃ l', l = x :: l' ∧ u = squeezeGo false l' := by
  intro l x u h hx
  cases l with
  | nil => simp [squeezeGo] at h
  | cons d r =>
    by_cases hsp : isSpaceChar d = true
    · rw [squeezeGo, if_pos hsp] at h
      have h2 : (' ' : Char) :: squeezeGo true r = x :: u := h
      rw [← (List.cons.inj h2).1] at hx
      simp [isSpaceChar] at hx
    · rw [squeezeGo, if_neg hsp] at h
      exact ⟨r, by rw [(List.cons.inj h).1], ((List.cons.inj h).2).symm⟩

lemma squeezeGo_wordBound : ∀ (l : List Char) (b : Bool) (a : Char),
    isWordChar a = true → ¬ SubSeg [a, a, a] l → ¬ SubSeg [a, a, a] (squeezeGo b l) := by
  intro l
  induction l with
  | nil =>
    intro b a ha hl h
    have := subSeg_length h
    simp [squeezeGo] at this
  | cons c r ih =>
    intro b a ha hl h
    have hlr : ¬ SubSeg [a, a, a] r := fun hr => hl (subSeg_cons hr)
    by_cases hsp : isSpaceChar c = true
    · rw [squeezeGo, if_pos hsp] at h
      cases b
      · have h2 : SubSeg [a, a, a] ([' '] ++ squeezeGo true r) := h
        rcases triple_split h2 with h1 | h1 | ⟨h1, -⟩
        · have := subSeg_length h1
          simp at this
        · exact ih true a ha hlr h1
        · have : (' ' : Char) = a := by simpa using h1
          exact word_ne_space ha this.symm
      · have h2 : SubSeg [a, a, a] (squeezeGo true r) := h
        exact ih true a ha hlr h2
    · rw [squeezeGo, if_neg hsp] at h
      rcases subSeg_cons_elim h with ⟨rfl, t, ht⟩ | h1
      · obtain ⟨r1, hr1, hu1⟩ := squeezeGo_false_cons r c (c :: t) ht (word_not_space ha)
        obtain ⟨r2, hr2, -⟩ := squeezeGo_false_cons r1 c t hu1.symm (word_not_space ha)
        apply hl
        rw [hr1, hr2]
        exact ⟨[], r2, rfl⟩
      · exact ih false a ha hlr h1

lemma squeezeGo_fix : ∀ (l : List Char), (∀ c ∈ l, goodChar c = true) → NoDbl l →
    squeezeGo false l = l
  ∧ ((∀ c0, l.head? = some c0 → isSpaceChar c0 = false) → squeezeGo true l = l) := by
  intro l
  induction l with
  | nil => exact fun _ _ => ⟨rfl, fun _ => rfl⟩
  | cons c r ih =>
    intro hg hd
    have hgr : ∀ x ∈ r, goodChar x = true := fun x hx => hg x (List.mem_cons_of_mem c hx)
    have hdr : NoDbl r := List.Chain'.tail hd
    obtain ⟨ihF, ihT⟩ := ih hgr hdr
    by_cases hsp : isSpaceChar c = true
    · have hc : c = ' ' := good_space_eq (hg c (List.mem_cons_self c r)) hsp
      have hrhead : ∀ c0, r.head? = some c0 → isSpaceChar c0 = false := by
        intro c0 h0
        cases hx : isSpaceChar c0 with
        | false => rfl
        | true =>
          exfalso
          have := (List.chain'_cons'.mp hd).1 c0 (by rw [h0]; rfl)
          exact this ⟨hsp, hx⟩
      constructor
      · rw [squeezeGo, if_pos hsp, ihT hrhead]
        subst hc
        rfl
      · intro hhead
        have := hhead c rfl
        rw [hsp] at this
        exact Bool.noConfusion this
    · constructor
      · rw [squeezeGo, if_neg hsp, ihF]
      · intro _
        rw [squeezeGo, if_neg hsp, ihF]

lemma dropWhile_head_not : ∀ (l : List Char) (c0 : Char),
    (l.dropWhile isSpaceChar).head? = some c0 → isSpaceChar c0 = false := by
  intro l
  induction l with
  | nil => intro c0 h; simp at h
  | cons c r ih =>
    intro c0 h
    by_cases hsp : isSpaceChar c = true
    · rw [List.dropWhile_cons, if_pos hsp] at h
      exact ih c0 h
    · rw [List.dropWhile_cons, if_neg hsp] at h
      have : c = c0 := by simpa using h
      subst this
      simpa using hsp

lemma stripL_decomp (l : List Char) : l = l.takeWhile isSpaceChar ++ stripL l :=
  (List.takeWhile_append_dropWhile _ _).symm

lemma stripR_decomp (l : List Char) :
    l = stripR l ++ (l.reverse.takeWhile isSpaceChar).reverse := by
  have h := List.takeWhile_append_dropWhile isSpaceChar l.reverse
  calc l = l.reverse.reverse := (List.reverse_reverse l).symm
    _ = (l.reverse.takeWhile isSpaceChar ++ l.reverse.dropWhile isSpaceChar).reverse := by
        rw [h]
    _ = (l.reverse.dropWhile isSpaceChar).reverse
          ++ (l.reverse.takeWhile isSpaceChar).reverse := by rw [List.reverse_append]
    _ = stripR l ++ (l.reverse.takeWhile isSpaceChar).reverse := rfl

lemma subSeg_stripL {u l : List Char} (h : SubSeg u (stripL l)) : SubSeg u l := by
  rw [stripL_decomp l]
  exact subSeg_append_right h

lemma subSeg_stripR {u l : List Char} (h : SubSeg u (stripR l)) : SubSeg u l := by
  rw [stripR_decomp l]
  exact subSeg_append_left h

lemma mem_stripL {x : Char} {l : List Char} (h : x ∈ stripL l) : x ∈ l := by
  rw [stripL_decomp l]
  exact List.mem_append_right _ h

lemma mem_stripR {x : Char} {l : List Char} (h : x ∈ stripR l) : x ∈ l := by
  rw [stripR_decomp l]
  exact List.mem_append_left _ h

lemma nodbl_stripL {l : List Char} (h : NoDbl l) : NoDbl (stripL l) := by
  rw [NoDbl] at h ⊢
  rw [stripL_decomp l] at h
  exact (List.chain'_append.mp h).2.1

lemma nodbl_stripR {l : List Char} (h : NoDbl l) : NoDbl (stripR l) := by
  rw [NoDbl] at h ⊢
  rw [stripR_decomp l] at h
  exact (List.chain'_append.mp h).1

lemma stripR_head {l : List Char} {c0 : Char} (h : (stripR l).head? = some c0) :
    l.head? = some c0 := by
  cases hsr : stripR l with
  | nil => rw [hsr] at h; exact absurd h (by simp)
  | cons x u =>
    rw [hsr] at h
    have hx : x = c0 := by simpa using h
    subst hx
    rw [stripR_decomp l, hsr]
    rfl

lemma stripR_last {l : List Char} (c0 : Char) (h : (stripR l).getLast? = some c0) :
    isSpaceChar c0 = false := by
  have key := List.head?_reverse ((l.reverse.dropWhile isSpaceChar).reverse)
  rw [List.reverse_reverse] at key
  rw [show stripR l = (l.reverse.dropWhile isSpaceChar).reverse from rfl] at h
  rw [← key] at h
  exact dropWhile_head_not l.reverse c0 h

lemma stripL_fix {l : List Char} (h : ∀ c0, l.head? = some c0 → isSpaceChar c0 = false) :
    stripL l = l := by
  cases l with
  | nil => rfl
  | cons c r =>
    have hc := h c rfl
    rw [stripL, List.dropWhile_cons, if_neg (by simp [hc])]

lemma stripR_fix {l : List Char} (h : ∀ c0, l.getLast? = some c0 → isSpaceChar c0 = false) :
    stripR l = l := by
  have h2 : stripL l.reverse = l.reverse := by
    apply stripL_fix
    intro c0 hc0
    rw [List.head?_reverse] at hc0
    exact h c0 hc0
  show (l.reverse.dropWhile isSpaceChar).reverse = l
  rw [show l.reverse.dropWhile isSpaceChar = stripL l.reverse from rfl, h2,
    List.reverse_reverse]

/-- The shape of every `cleanStr` output: only word characters and single
spaces, no three adjacent equal characters, no space at either end. -/
def Normal (y : List Char) : Prop :=
  (∀ c ∈ y, goodChar c = true) ∧ NoDbl y
  ∧ (∀ a, isWordChar a = true → ¬ SubSeg [a, a, a] y)
  ∧ (∀ c0, y.head? = some c0 → isSpaceChar c0 = false)
  ∧ (∀ c0, y.getLast? = some c0 → isSpaceChar c0 = false)

lemma cleanStr_normal (l : List Char) : Normal (cleanStr l) := by
  refine ⟨?_, ?_, ?_, ?_, ?_⟩
  · intro c hc
    have hc4 : c ∈ squeeze (nonWordToSpace (collapse3 (quotesToSpace l))) :=
      mem_stripL (mem_stripR hc)
    rcases squeezeGo_chars _ false c hc4 with rfl | ⟨hc3, hns⟩
    · decide
    · have := nonWordToSpace_chars c hc3
      rcases Bool.or_eq_true_iff.mp this with hw | hsp
      · rw [goodChar, hw]
        rfl
      · rw [hns] at hsp
        exact Bool.noConfusion hsp
  · exact nodbl_stripR (nodbl_stripL (squeezeGo_nodbl _ false))
  · intro a ha h
    have h4 := subSeg_stripL (subSeg_stripR h)
    exact squeezeGo_wordBound _ false a ha
      (nonWordToSpace_wordBound ha (collapse3_wordBound ha)) h4
  · intro c0 h0
    exact dropWhile_head_not _ c0 (stripR_head h0)
  · intro c0 h0
    exact stripR_last c0 h0

lemma cleanStr_fix {y : List Char} (h : Normal y) : cleanStr y = y := by
  obtain ⟨hg, hd, hw, hh, hlast⟩ := h
  have hnt : NoTriple y := by
    intro a ha
    have hmem : a ∈ y := subSeg_mem ha (by simp)
    rcases Bool.or_eq_true_iff.mp (hg a hmem) with hwa | hsa
    · exact hw a hwa ha
    · have haeq : a = ' ' := by simpa using hsa
      subst haeq
      obtain ⟨s, t, hst⟩ := ha
      rw [NoDbl, hst, List.append_assoc] at hd
      have h2 := (List.chain'_append.mp hd).2.1
      simp only [List.cons_append, List.nil_append] at h2
      have h3 := (List.chain'_cons.mp h2).1
      exact h3 ⟨by decide, by decide⟩
  have h1 : quotesToSpace y = y := quotesToSpace_fix hg
  have h2 : collapse3 y = y := collapse3_fix hnt
  have h3 : nonWordToSpace y = y := nonWordToSpace_fix hg
  have h4 : squeeze y = y := (squeezeGo_fix y hg hd).1
  have h5 : stripL y = y := stripL_fix hh
  have h6 : stripR y = y := stripR_fix hlast
  show strip (squeeze (nonWordToSpace (collapse3 (quotesToSpace y)))) = y
  rw [h1, h2, h3, show squeeze y = y from h4]
  show stripR (stripL y) = y
  rw [h5, h6]

/-- C6 (as amended): the `process_csv.py` text normalizer is idempotent:
cleaning an already cleaned string changes nothing, both on the string
level and through the NaN-handling wrapper. -/
theorem clean_text_idempotent :
    (∀ l : List Char, cleanStr (cleanStr l) = cleanStr l)
  ∧ (∀ o : Option (List Char), cleanText (some (cleanText o)) = cleanText o) := by
  have key : ∀ l : List Char, cleanStr (cleanStr l) = cleanStr l :=
    fun l => cleanStr_fix (cleanStr_normal l)
  refine ⟨key, ?_⟩
  intro o
  cases o with
  | none => rfl
  | some l => exact key l

/-- C6 counterexample: the `hello.py` variant of the normalizer is not
idempotent: on the string a!a it first removes the exclamation mark,
producing aa, and a second pass collapses aa to a. -/
theorem hello_clean_not_idempotent :
    cleanHelloStr (cleanHelloStr ['a', '!', 'a']) ≠ cleanHelloStr ['a', '!', 'a'] := by
  decide

/-- C7 (as amended): the `process_csv.py` normalizer maps null input to the
empty string, while the `hello.py` variant returns the null input itself. -/
theorem null_input_variants : cleanText none = [] ∧ cleanHello none = none :=
  ⟨rfl, rfl⟩

/-- C7 counterexample: on null input the `hello.py` variant does not return
the empty string. -/
theorem hello_null_not_empty : cleanHello none ≠ some [] := by decide

end B2W
